import Mathlib

/-!
Verification of `scripts/state-divergence-identifier.py`.

We shallowly embed the script: Python dicts become insertion-ordered
association lists (`List (Node × _)`), `defaultdict` reads that insert a
default entry are modelled explicitly (`graphGet`, `ddGetDist`), the
`while` loops become fuel-indexed recursions returning `none` when the
fuel runs out (a modelling artifact only; termination is proved
separately), and `math.inf` becomes the `none` case of `Option Nat`.

The frontier list is stored reversed: the Lean list head corresponds to
the Python list end, so `frontier.pop()` is head-pattern-matching and
`frontier.append(x)` is `x :: frontier`.  Likewise the path accumulator
in `backtrack` conses, which directly yields the Python
`list(reversed(path))`.
-/

/-- State hashes are strings (hexadecimal tokens in the log). -/
abbrev Node := String

/-- A transition graph: the Python `defaultdict(list)` built by `build_graph`,
as an insertion-ordered association list from a node to its successor list. -/
abbrev Graph := List (Node × List Node)

/-- An entry of `dists`: `(distance, predecessor)`.  A `none` distance is
`math.inf`; a `none` predecessor is Python `None`. -/
abbrev DistEntry := Option Nat × Option Node

/-- The `dists` dictionary, insertion ordered. -/
abbrev Dists := List (Node × DistEntry)

/-- Python dict lookup: first matching key. -/
def dictLookup {α : Type} : List (Node × α) → Node → Option α
  | [], _ => none
  | (k, v) :: rest, x => if k = x then some v else dictLookup rest x

/-- Python dict assignment `d[x] = v`: overwrite in place if the key exists,
otherwise append at the end (insertion order). -/
def dictSet {α : Type} : List (Node × α) → Node → α → List (Node × α)
  | [], x, v => [(x, v)]
  | (k, w) :: rest, x, v => if k = x then (x, v) :: rest else (k, w) :: dictSet rest x v

/-- The successor list of a node, as `graph[k]` reads it (default `[]`). -/
def chl (g : Graph) (k : Node) : List Node := (dictLookup g k).getD []

/-- Reading `graph[k]` on a `defaultdict(list)`: returns the successor list
and, when the key is absent, also inserts `k : []` into the dict. -/
def graphGet (g : Graph) (k : Node) : List Node × Graph :=
  match dictLookup g k with
  | some cs => (cs, g)
  | none => ([], g ++ [(k, [])])

/-- Reading `dists[k]` on `defaultdict(lambda: (math.inf, None))`. -/
def ddGetDist (d : Dists) (k : Node) : DistEntry × Dists :=
  match dictLookup d k with
  | some e => (e, d)
  | none => ((none, none), d ++ [(k, (none, none))])

/-- The keys of a dict, `d.keys()`, in insertion order. -/
def keys {α : Type} (l : List (Node × α)) : List Node := l.map Prod.fst

/-- All nodes occurring in some successor list. -/
def childrenOf (g : Graph) : List Node := g.flatMap Prod.snd

/-- The node list built by `graph2set` before `set()` is applied:
for each key, the key followed by its values. -/
def graph2set (g : Graph) : List Node := g.flatMap (fun p => p.1 :: p.2)

/-- The `parents[x]` list after the parents-building loop of `longest_path`:
for each `(node, children)` item of the graph in order, `node` is appended
once per occurrence of `x` in `children`. -/
def parentsOf (g : Graph) (x : Node) : List Node :=
  g.flatMap (fun p => (p.2.filter (fun c => c = x)).map (fun _ => p.1))

/-- The genesis points: keys of the graph whose parents list is empty. -/
def genesisPoints (g : Graph) : List Node :=
  (keys g).filter (fun k => (parentsOf g k).isEmpty)

/-- Seeding of `dists`: each genesis node gets `(0, None)`. -/
def seedDists (g : Graph) : Dists :=
  (genesisPoints g).foldl (fun d k => dictSet d k (some 0, none)) []

/-- Comparison `a < b` on distances where `none` is `math.inf`. -/
def ltInf : Option Nat → Option Nat → Bool
  | none, _ => false
  | some _, none => true
  | some n, some m => decide (n < m)

/-- Comparison `a > b` on distances where `none` is `math.inf`; used by `max`. -/
def gtInf : Option Nat → Option Nat → Bool
  | none, none => false
  | none, some _ => true
  | some _, none => false
  | some n, some m => decide (m < n)

/-- The inner `for node in nxt` loop of the relaxation: for each child,
`new_dist = dists[curr][0] + 1` (recomputed each time, with the defaultdict
read), and on strict improvement the child is updated and pushed. -/
def relaxChildren (curr : Node) : List Node → Dists → List Node → Dists × List Node
  | [], dists, frontier => (dists, frontier)
  | c :: cs, dists, frontier =>
      let pc := ddGetDist dists curr
      let nd := pc.1.1.map (· + 1)
      let pn := ddGetDist pc.2 c
      if ltInf nd pn.1.1 then
        relaxChildren curr cs (dictSet pn.2 c (nd, some curr)) (c :: frontier)
      else
        relaxChildren curr cs pn.2 frontier

/-- The `while len(frontier) != 0` loop, fuel-indexed.  Returns the final
graph (possibly extended by the defaultdict reads) and the final `dists`;
`none` means the fuel ran out. -/
def relaxLoop : Nat → Graph → Dists → List Node → Option (Graph × Dists)
  | _, g, dists, [] => some (g, dists)
  | 0, _, _, _ :: _ => none
  | fuel + 1, g, dists, curr :: rest =>
      let p := graphGet g curr
      let q := relaxChildren curr p.1 dists rest
      relaxLoop fuel p.2 q.1 q.2

/-- Python `max(dists.items(), key=lambda x: x[1][0])`: the first item, in
insertion order, attaining the maximal distance; `none` on an empty dict
(where Python raises `ValueError`). -/
def maxByDist (d : Dists) : Option (Node × DistEntry) :=
  match d with
  | [] => none
  | e :: rest => some (rest.foldl (fun best x => if gtInf x.2.1 best.2.1 then x else best) e)

/-- The path-reconstruction `while curr is not None` loop.  Python appends
and finally reverses; we cons onto the accumulator, producing the reversed
list directly.  Note `if nxt:` is falsy both for `None` and for the empty
string.  `none` means the fuel ran out. -/
def backtrack : Nat → Dists → Node × DistEntry → List Node → Option (List Node)
  | 0, _, _, _ => none
  | fuel + 1, dists, c, acc =>
      let acc' := c.1 :: acc
      match c.2.2 with
      | none => some acc'
      | some nxt =>
          if nxt = "" then some acc'
          else
            let p := ddGetDist dists nxt
            backtrack fuel p.2 (nxt, p.1) acc'

/-- Outcome of a `longest_path` call: a returned path together with the
(possibly extended) graph, or the `ValueError` Python raises when `max` is
applied to an empty `dists`. -/
inductive LPResult where
  | ok (path : List Node) (g : Graph)
  | valueError (g : Graph)
deriving DecidableEq

/-- The graph object as it stands when the call ends (normally or by raising). -/
def resultGraph : LPResult → Graph
  | .ok _ g => g
  | .valueError g => g

/-- The `longest_path(graph)` function, fuel-indexed (`none` = fuel ran out). -/
def longest_path (fuel : Nat) (g : Graph) : Option LPResult :=
  match relaxLoop fuel g (seedDists g) (genesisPoints g).reverse with
  | none => none
  | some (g', dists) =>
      match maxByDist dists with
      | none => some (.valueError g')
      | some endPair =>
          match backtrack fuel dists endPair [] with
          | none => none
          | some path => some (.ok path g')

/-- Adjacency check: every consecutive pair of the list is a recorded edge. -/
def chainB (g : Graph) : List Node → Bool
  | a :: b :: rest => decide (b ∈ chl g a) && chainB g (b :: rest)
  | _ => true

/-- A nonempty path that starts at a genesis node and follows recorded edges. -/
def isGenesisPath (g : Graph) (p : List Node) : Bool :=
  match p with
  | [] => false
  | x :: _ => decide (x ∈ genesisPoints g) && chainB g p

/-- Length of the longest common prefix of two lists. -/
def commonPrefixLen : List Node → List Node → Nat
  | x :: xs, y :: ys => if x = y then commonPrefixLen xs ys + 1 else 0
  | _, _ => 0

/-- Modelled from the spec: `difflib.SequenceMatcher(a=path1, b=path2)
.find_longest_match()` is Python standard-library code, not part of `src/`.
Per its documentation (and the spec common-substring policy) it returns
`(i, j, k)`: the longest contiguous block with `a[i:i+k] == b[j:j+k]`, ties
broken by the earliest `i`, then the earliest `j`, and `(0, 0, 0)` when no
element is shared.  With five-element inputs no junk heuristic applies. -/
def find_longest_match (a b : List Node) : Nat × Nat × Nat :=
  (List.range (a.length + 1)).foldl (fun best i =>
    (List.range (b.length + 1)).foldl (fun best2 j =>
      let k := commonPrefixLen (a.drop i) (b.drop j)
      if best2.2.2 < k then (i, j, k) else best2) best) (0, 0, 0)

/-- The report block of `__main__` (lines 78 to 86): the lines printed once
the two longest paths have been compared.  When `k` is nonzero the indices
`i` and `i + k - 1` are in bounds for `path1` (and `j` likewise for
`path2`), so `List.getD` agrees with the Python indexing `path1[i]`. -/
def renderComparison (path1 path2 : List Node) : List String :=
  let r := find_longest_match path1 path2
  let i := r.1
  let j := r.2.1
  let k := r.2.2
  if k = 0 then ["no common substring on longest paths"]
  else
    ["common substring of length " ++ toString k ++ " found",
     "first common state hash: " ++ path1.getD i "",
     "last common state hash: " ++ path1.getD (i + k - 1) "",
     "substring starts at state #" ++ toString i ++ ", ends at state #" ++
       toString (i + k - 1) ++ " in log 1's longest path of " ++
       toString path1.length ++ " states",
     "substring starts at state #" ++ toString j ++ ", ends at state #" ++
       toString (j + k - 1) ++ " in log 2's longest path of " ++
       toString path2.length ++ " states"]

/-- Does the needle occur at the start of the haystack? -/
def listStartsWith : List Char → List Char → Bool
  | [], _ => true
  | _ :: _, [] => false
  | a :: as, b :: bs => decide (a = b) && listStartsWith as bs

/-- Does the needle occur contiguously anywhere in the haystack? -/
def listInfixB (needle : List Char) : List Char → Bool
  | [] => listStartsWith needle []
  | b :: rest => listStartsWith needle (b :: rest) || listInfixB needle rest

/-- Does a hash occur (as a substring) in one of the output lines? -/
def mentionsHash (lines : List String) (h : Node) : Bool :=
  lines.any (fun s => listInfixB h.toList s.toList)

/-- One-or-more-step reachability within the given number of steps. -/
def reachesIn (g : Graph) : Nat → Node → Node → Bool
  | 0, _, _ => false
  | fuel + 1, a, b => (chl g a).any (fun c => c = b || reachesIn g fuel c b)

/-- Decidable acyclicity: no node reaches itself by a nonempty edge walk.
Walks visiting more than `(graph2set g).length` nodes repeat a node, so this
fuel suffices. -/
def acyclicB (g : Graph) : Bool :=
  (graph2set g).all (fun n => !(reachesIn g (graph2set g).length n n))

/-- The relaxation extends the graph dict only by appending keys with empty
successor lists, each a child node of the original graph (defaultdict
auto-vivification of visited leaves). -/
def GExt (g0 g : Graph) : Prop :=
  ∃ e, g = g0 ++ e ∧ ∀ p ∈ e, p.2 = ([] : List Node) ∧ p.1 ∈ childrenOf g0

/-- Invariant on the distance map during the relaxation: every stored entry
is finite and belongs to the node set; an entry with no predecessor is a
genesis seed; an entry with predecessor q records a graph edge q→n and q
itself has a finite entry. -/
def DInv (g0 : Graph) (d : Dists) : Prop :=
  ∀ n e, dictLookup d n = some e →
    (∃ k, e.1 = some k) ∧ n ∈ graph2set g0 ∧
    (e.2 = none → n ∈ genesisPoints g0) ∧
    (∀ q, e.2 = some q → q ∈ graph2set g0 ∧ n ∈ chl g0 q ∧
      ∃ e2, dictLookup d q = some e2 ∧ e2.1.isSome = true)

/-- Frontier invariant: every frontier member has a finite entry. -/
def FrInv (d : Dists) (fr : List Node) : Prop :=
  ∀ x ∈ fr, ∃ e, dictLookup d x = some e ∧ e.1.isSome = true

/-- Is the stored distance of a node finite? -/
def isFin (d : Dists) (n : Node) : Bool :=
  match dictLookup d n with
  | some (some _, _) => true
  | _ => false

/-- The stored finite distance of a node (0 when absent or infinite). -/
def finVal (d : Dists) (n : Node) : Nat :=
  match dictLookup d n with
  | some (some k, _) => k
  | _ => 0

/-- Number of node-set members without a finite entry. -/
def cntInf (g0 : Graph) (d : Dists) : Nat :=
  (graph2set g0).countP (fun n => !(isFin d n))

/-- Sum of the stored finite distances over the node set. -/
def sumFin (g0 : Graph) (d : Dists) : Nat :=
  ((graph2set g0).map (fun n => finVal d n)).sum

/-- Strict decrease of the termination measure on distance maps. -/
def MLt (g0 : Graph) (d2 d : Dists) : Prop :=
  cntInf g0 d2 < cntInf g0 d ∨
    (cntInf g0 d2 = cntInf g0 d ∧ sumFin g0 d2 < sumFin g0 d)

/-! ## Concrete claim theorems -/

/-- C8: for a transition graph that is the single chain a→b→c→d, the
Longest Path Finder returns exactly the path [a, b, c, d].  (The graph
comes back extended by the leaf key d with an empty successor list, a
defaultdict side effect of the loop.) -/
theorem c8_chain_returns_full_path :
    longest_path 10 [("a", ["b"]), ("b", ["c"]), ("c", ["d"])] =
      some (LPResult.ok ["a", "b", "c", "d"]
        [("a", ["b"]), ("b", ["c"]), ("c", ["d"]), ("d", [])]) := by rfl

/-- C1 (code bug): the relaxation in `longest_path` initializes distances to
+infinity and updates when `new_dist < dists[node][0]`, which computes the
shortest distance from the genesis set; the returned path is the path to
the node whose shortest distance is maximal, not the longest path.  On the
acyclic graph with edges a→b, a→d, b→c, c→d the call returns [a, b, c]
(2 edges), although [a, b, c, d] is a genesis-rooted recorded path with 3
edges, contradicting the claim (and the usage text of the script itself,
which says it finds the longest path in both graphs). -/
theorem c1_relaxation_is_shortest_path_bug :
    longest_path 10 [("a", ["b", "d"]), ("b", ["c"]), ("c", ["d"])] =
      some (LPResult.ok ["a", "b", "c"]
        [("a", ["b", "d"]), ("b", ["c"]), ("c", ["d"]), ("d", [])]) ∧
    isGenesisPath [("a", ["b", "d"]), ("b", ["c"]), ("c", ["d"])]
      ["a", "b", "c", "d"] = true := by
  exact ⟨rfl, rfl⟩

/-- C2 (counterexample): on the empty graph the claim says `longest_path`
returns an empty path without raising; in fact the genesis set and hence
`dists` are empty, and Python `max` over the empty `dists.items()` raises
`ValueError`, so no path is returned at all. -/
theorem c2_empty_graph_raises_cex :
    longest_path 10 ([] : Graph) = some (LPResult.valueError []) := by rfl

/-- C2 (amended): on an empty transition graph `longest_path` raises
`ValueError` (from `max` over an empty sequence), so the comparison is
never reached; the common-substring computation itself, applied to two
empty paths, does report zero-length agreement. -/
theorem c2_empty_graph_amended :
    longest_path 10 ([] : Graph) = some (LPResult.valueError []) ∧
    find_longest_match [] [] = (0, 0, 0) := by
  exact ⟨rfl, rfl⟩

/-- C3 (counterexample): running `longest_path` does not leave the graph
unchanged: on the one-edge graph a→b, reading `graph[b]` inside the loop
auto-vivifies the key b in the defaultdict, so the adjacency mapping gains
the key b (with an empty successor list). -/
theorem c3_graph_mutated_cex :
    longest_path 10 [("a", ["b"])] =
      some (LPResult.ok ["a", "b"] [("a", ["b"]), ("b", [])]) ∧
    ([("a", ["b"]), ("b", [])] : Graph) ≠ [("a", ["b"])] := by
  exact ⟨rfl, by decide⟩

set_option maxRecDepth 10000 in
/-- C4 (counterexample): for longest paths [aa,bb,cc,dd,ee] and
[aa,bb,cc,77,88] the comparison is non-trivial (common run of length 3),
yet no line of the printed report mentions the first pair of divergent
hashes (dd and 77), and the report takes no graph input at all, so the
children lists recorded for the divergence-point node appear nowhere. -/
theorem c4_divergent_children_not_reported_cex :
    renderComparison ["aa", "bb", "cc", "dd", "ee"] ["aa", "bb", "cc", "77", "88"] =
      ["common substring of length 3 found",
       "first common state hash: aa",
       "last common state hash: cc",
       "substring starts at state #0, ends at state #2 in log 1\x27s longest path of 5 states",
       "substring starts at state #0, ends at state #2 in log 2\x27s longest path of 5 states"] ∧
    mentionsHash (renderComparison ["aa", "bb", "cc", "dd", "ee"]
      ["aa", "bb", "cc", "77", "88"]) "dd" = false ∧
    mentionsHash (renderComparison ["aa", "bb", "cc", "dd", "ee"]
      ["aa", "bb", "cc", "77", "88"]) "77" = false := by
  exact ⟨rfl, rfl, rfl⟩

/-- C4 (amended): for every pair of compared paths with a non-trivial
comparison result, the report includes the length of the common run and
the last agreeing hash (the last hash of the common run); the first pair
of divergent sibling hashes and the children lists of the
divergence-point node are not part of the output. -/
theorem c4_amended_common_run_reported (p1 p2 : List Node)
    (h : (find_longest_match p1 p2).2.2 ≠ 0) :
    ("common substring of length " ++ toString (find_longest_match p1 p2).2.2 ++
      " found") ∈ renderComparison p1 p2 ∧
    ("last common state hash: " ++
      p1.getD ((find_longest_match p1 p2).1 + (find_longest_match p1 p2).2.2 - 1) "") ∈
      renderComparison p1 p2 := by
  unfold renderComparison
  rw [if_neg h]
  simp

set_option maxRecDepth 10000 in
/-- Witness for the amended C4 at a concrete non-trivial comparison. -/
theorem c4_amended_witness :
    ("common substring of length " ++
      toString (find_longest_match ["aa", "bb", "cc", "dd", "ee"]
        ["aa", "bb", "cc", "77", "88"]).2.2 ++ " found") ∈
      renderComparison ["aa", "bb", "cc", "dd", "ee"] ["aa", "bb", "cc", "77", "88"] ∧
    ("last common state hash: " ++
      (["aa", "bb", "cc", "dd", "ee"] : List Node).getD
        ((find_longest_match ["aa", "bb", "cc", "dd", "ee"]
          ["aa", "bb", "cc", "77", "88"]).1 +
         (find_longest_match ["aa", "bb", "cc", "dd", "ee"]
          ["aa", "bb", "cc", "77", "88"]).2.2 - 1) "") ∈
      renderComparison ["aa", "bb", "cc", "dd", "ee"] ["aa", "bb", "cc", "77", "88"] :=
  c4_amended_common_run_reported ["aa", "bb", "cc", "dd", "ee"]
    ["aa", "bb", "cc", "77", "88"] (by decide)

/-- C7: for paths [a,b,c,x,y] and [a,b,c,z,w] built from five distinct
hashes each, sharing exactly the first three, the common-substring
comparison reports the block starting at index 0 in both paths with
length 3, i.e. the common run [a,b,c]. -/
theorem c7_common_substring_policy (a b c x y z w : Node)
    (h1 : ([a, b, c, x, y] : List Node).Nodup)
    (h2 : ([a, b, c, z, w] : List Node).Nodup)
    (h3 : x ≠ z) (h4 : x ≠ w) (h5 : y ≠ z) (h6 : y ≠ w) :
    find_longest_match [a, b, c, x, y] [a, b, c, z, w] = (0, 0, 3) := by
  simp only [List.nodup_cons, List.mem_cons, List.mem_singleton, List.not_mem_nil,
    not_or, or_false] at h1 h2
  obtain ⟨⟨hab, hac, hax, hay⟩, ⟨hbc, hbx, hby⟩, ⟨hcx, hcy⟩, hxy, -⟩ := h1
  obtain ⟨⟨-, -, haz, haw⟩, ⟨-, hbz, hbw⟩, ⟨hcz, hcw⟩, hzw, -⟩ := h2
  simp [find_longest_match, List.range_succ, commonPrefixLen,
    hab, hac, hax, hay, hbc, hbx, hby, hcx, hcy, hxy, haz, haw, hbz, hbw, hcz, hcw, hzw,
    h3, h4, h5, h6,
    Ne.symm hab, Ne.symm hac, Ne.symm hbc,
    Ne.symm haz, Ne.symm haw, Ne.symm hbz, Ne.symm hbw, Ne.symm hcz, Ne.symm hcw,
    Ne.symm h3, Ne.symm h4, Ne.symm h5, Ne.symm h6,
    Ne.symm hax, Ne.symm hay, Ne.symm hbx, Ne.symm hby, Ne.symm hcx, Ne.symm hcy,
    Ne.symm hxy, Ne.symm hzw]

set_option maxRecDepth 10000 in
/-- Witness for C7 at concrete distinct hashes. -/
theorem c7_witness :
    find_longest_match ["aa", "bb", "cc", "ee", "ff"] ["aa", "bb", "cc", "dd", "99"] =
      (0, 0, 3) :=
  c7_common_substring_policy "aa" "bb" "cc" "ee" "ff" "dd" "99"
    (by decide) (by decide) (by decide) (by decide) (by decide) (by decide)

/-! ## Dictionary lemmas -/

/-- A found value is an item of the association list. -/
theorem dictLookup_mem {α : Type} {l : List (Node × α)} {y : Node} {v : α}
    (h : dictLookup l y = some v) : (y, v) ∈ l := by
  induction l with
  | nil => simp [dictLookup] at h
  | cons p rest ih =>
      obtain ⟨k, w⟩ := p
      rw [dictLookup] at h
      by_cases hk : k = y
      · rw [if_pos hk] at h
        subst hk
        obtain rfl : w = v := by simpa using h
        exact List.mem_cons_self _ _
      · rw [if_neg hk] at h
        exact List.mem_cons_of_mem _ (ih h)

/-- Lookup fails exactly off the key list. -/
theorem dictLookup_eq_none {α : Type} (l : List (Node × α)) (y : Node) :
    dictLookup l y = none ↔ y ∉ keys l := by
  induction l with
  | nil => simp [dictLookup, keys]
  | cons p rest ih =>
      obtain ⟨k, w⟩ := p
      by_cases hk : k = y
      · subst hk
        simp [dictLookup, keys]
      · simp [dictLookup, hk, keys, Ne.symm hk] at ih ⊢
        exact ih

/-- With duplicate-free keys, every item is the one lookup finds. -/
theorem dictLookup_of_mem {α : Type} {l : List (Node × α)} {y : Node} {v : α}
    (hnd : (keys l).Nodup) (h : (y, v) ∈ l) : dictLookup l y = some v := by
  induction l with
  | nil => simp at h
  | cons p rest ih =>
      obtain ⟨k, w⟩ := p
      rw [keys, List.map_cons, List.nodup_cons] at hnd
      rcases List.mem_cons.mp h with h1 | h1
      · obtain ⟨rfl, rfl⟩ := Prod.mk.injEq .. ▸ h1
        simp [dictLookup]
      · have hky : k ≠ y := by
          rintro rfl
          exact hnd.1 (by simpa [keys] using List.mem_map_of_mem Prod.fst h1)
        rw [dictLookup, if_neg hky]
        exact ih hnd.2 h1

/-- Lookup after assignment. -/
theorem dictLookup_dictSet {α : Type} (l : List (Node × α)) (x : Node) (v : α) (y : Node) :
    dictLookup (dictSet l x v) y = if y = x then some v else dictLookup l y := by
  induction l with
  | nil =>
      by_cases h : y = x
      · subst h; simp [dictSet, dictLookup]
      · simp [dictSet, dictLookup, h, Ne.symm h]
  | cons p rest ih =>
      obtain ⟨k, w⟩ := p
      by_cases hkx : k = x
      · subst hkx
        by_cases hyk : y = k
        · subst hyk; simp [dictSet, dictLookup]
        · simp [dictSet, dictLookup, hyk, Ne.symm hyk]
      · by_cases hky : k = y
        · subst hky
          have : ¬ k = x := hkx
          simp [dictSet, dictLookup, hkx, Ne.symm hkx, this]
        · simp [dictSet, dictLookup, hkx, hky, ih]

/-- Assignment preserves the key list when the key is present, else appends it. -/
theorem keys_dictSet {α : Type} (l : List (Node × α)) (x : Node) (v : α) :
    keys (dictSet l x v) = if x ∈ keys l then keys l else keys l ++ [x] := by
  induction l with
  | nil => simp [dictSet, keys]
  | cons p rest ih =>
      obtain ⟨k, w⟩ := p
      by_cases hkx : k = x
      · subst hkx
        simp [dictSet, keys]
      · have hxk : ¬ x = k := fun h => hkx h.symm
        simp only [dictSet, if_neg hkx, keys, List.map_cons, List.mem_cons, hxk, false_or,
          List.cons_append] at ih ⊢
        by_cases hx : x ∈ List.map Prod.fst rest
        · rw [if_pos hx] at ih ⊢
          rw [ih]
        · rw [if_neg hx] at ih ⊢
          rw [ih]

/-- Lookup through an appended tail, found case. -/
theorem dictLookup_append_some {α : Type} {l₁ : List (Node × α)} (l₂ : List (Node × α))
    {y : Node} {v : α} (h : dictLookup l₁ y = some v) :
    dictLookup (l₁ ++ l₂) y = some v := by
  induction l₁ with
  | nil => simp [dictLookup] at h
  | cons p rest ih =>
      obtain ⟨k, w⟩ := p
      rw [dictLookup] at h
      by_cases hk : k = y
      · rw [List.cons_append, dictLookup, if_pos hk]
        rwa [if_pos hk] at h
      · rw [List.cons_append, dictLookup, if_neg hk]
        rw [if_neg hk] at h
        exact ih h

/-- Lookup through an appended tail, not-found case. -/
theorem dictLookup_append_none {α : Type} {l₁ : List (Node × α)} (l₂ : List (Node × α))
    {y : Node} (h : dictLookup l₁ y = none) :
    dictLookup (l₁ ++ l₂) y = dictLookup l₂ y := by
  induction l₁ with
  | nil => simp
  | cons p rest ih =>
      obtain ⟨k, w⟩ := p
      rw [dictLookup] at h
      by_cases hk : k = y
      · rw [if_pos hk] at h; exact absurd h (by simp)
      · rw [List.cons_append, dictLookup, if_neg hk]
        rw [if_neg hk] at h
        exact ih h

/-- Appending a single foreign key does not change a lookup. -/
theorem dictLookup_append_single_ne {α : Type} (l : List (Node × α)) {c n : Node}
    (x : α) (h : n ≠ c) :
    dictLookup (l ++ [(c, x)]) n = dictLookup l n := by
  cases hl : dictLookup l n with
  | some v => exact dictLookup_append_some _ hl
  | none =>
      rw [dictLookup_append_none _ hl, dictLookup, if_neg (Ne.symm h), dictLookup]

/-! ## Graph-structure lemmas -/

/-- A recorded parent occurs in the parents list. -/
theorem mem_parentsOf {g : Graph} {q n : Node} {cs : List Node}
    (hq : (q, cs) ∈ g) (hn : n ∈ cs) : q ∈ parentsOf g n := by
  unfold parentsOf
  rw [List.mem_flatMap]
  refine ⟨(q, cs), hq, ?_⟩
  rw [List.mem_map]
  exact ⟨n, by simpa [List.mem_filter] using hn, rfl⟩

/-- A node on some successor list has a nonempty parents list. -/
theorem parentsOf_ne_nil_of_mem_children {g : Graph} {n : Node}
    (h : n ∈ childrenOf g) : parentsOf g n ≠ [] := by
  unfold childrenOf at h
  rw [List.mem_flatMap] at h
  obtain ⟨p, hp, hnp⟩ := h
  intro he
  have := @mem_parentsOf g p.1 n p.2 (by simpa using hp) hnp
  rw [he] at this
  exact List.not_mem_nil _ this

/-- A member of a successor list is a child node of the graph. -/
theorem mem_childrenOf_of_mem_chl {g : Graph} {k c : Node}
    (h : c ∈ chl g k) : c ∈ childrenOf g := by
  unfold chl at h
  cases hl : dictLookup g k with
  | none => rw [hl] at h; simp at h
  | some cs =>
      rw [hl] at h
      unfold childrenOf
      rw [List.mem_flatMap]
      exact ⟨(k, cs), dictLookup_mem hl, by simpa using h⟩

/-- Keys belong to the node set. -/
theorem mem_graph2set_of_mem_keys {g : Graph} {n : Node}
    (h : n ∈ keys g) : n ∈ graph2set g := by
  unfold keys at h
  rw [List.mem_map] at h
  obtain ⟨p, hp, rfl⟩ := h
  unfold graph2set
  rw [List.mem_flatMap]
  exact ⟨p, hp, List.mem_cons_self _ _⟩

/-- Child nodes belong to the node set. -/
theorem mem_graph2set_of_mem_children {g : Graph} {n : Node}
    (h : n ∈ childrenOf g) : n ∈ graph2set g := by
  unfold childrenOf at h
  rw [List.mem_flatMap] at h
  obtain ⟨p, hp, hnp⟩ := h
  unfold graph2set
  rw [List.mem_flatMap]
  exact ⟨p, hp, List.mem_cons_of_mem _ hnp⟩

/-- The node set is exactly keys plus children. -/
theorem mem_graph2set_iff {g : Graph} {n : Node} :
    n ∈ graph2set g ↔ n ∈ keys g ∨ n ∈ childrenOf g := by
  constructor
  · intro h
    unfold graph2set at h
    rw [List.mem_flatMap] at h
    obtain ⟨p, hp, hnp⟩ := h
    rcases List.mem_cons.mp hnp with h1 | h1
    · exact Or.inl (by subst h1; exact List.mem_map_of_mem Prod.fst hp)
    · exact Or.inr (by unfold childrenOf; rw [List.mem_flatMap]; exact ⟨p, hp, h1⟩)
  · rintro (h | h)
    · exact mem_graph2set_of_mem_keys h
    · exact mem_graph2set_of_mem_children h

/-- Genesis points are keys. -/
theorem genesisPoints_sub_keys {g : Graph} {n : Node}
    (h : n ∈ genesisPoints g) : n ∈ keys g :=
  (List.mem_filter.mp h).1

/-- Genesis points have an empty parents list. -/
theorem parentsOf_eq_nil_of_genesis {g : Graph} {n : Node}
    (h : n ∈ genesisPoints g) : parentsOf g n = [] := by
  have := (List.mem_filter.mp h).2
  simpa [List.isEmpty_iff] using this

/-- A key with an empty parents list is a genesis point. -/
theorem genesis_of_key_no_parents {g : Graph} {n : Node}
    (hk : n ∈ keys g) (hp : parentsOf g n = []) : n ∈ genesisPoints g := by
  rw [genesisPoints, List.mem_filter]
  exact ⟨hk, by simp [hp]⟩

/-- C5: every genesis point selected by the longest-path routine has zero
entries in the reverse (parents) mapping, and every non-genesis node of
the node set has at least one parent entry. -/
theorem c5_genesis_no_parents (g : Graph) :
    (∀ n ∈ genesisPoints g, parentsOf g n = []) ∧
    (∀ n ∈ graph2set g, n ∉ genesisPoints g → parentsOf g n ≠ []) := by
  constructor
  · intro n hn
    exact parentsOf_eq_nil_of_genesis hn
  · intro n hn hng
    rcases mem_graph2set_iff.mp hn with h | h
    · intro he
      exact hng (genesis_of_key_no_parents h he)
    · exact parentsOf_ne_nil_of_mem_children h

/-- Witness for C5 on the one-edge graph a→b. -/
theorem c5_witness :
    parentsOf [("a", ["b"])] "a" = [] ∧ parentsOf [("a", ["b"])] "b" ≠ [] :=
  ⟨(c5_genesis_no_parents [("a", ["b"])]).1 "a" (by decide),
   (c5_genesis_no_parents [("a", ["b"])]).2 "b" (by decide) (by decide)⟩

/-! ## Defaultdict and extension lemmas -/

/-- Reading a present key does not mutate the dict. -/
theorem ddGetDist_of_some {d : Dists} {k : Node} {e : DistEntry}
    (h : dictLookup d k = some e) : ddGetDist d k = (e, d) := by
  unfold ddGetDist
  rw [h]

/-- Net effect on lookups of the defaultdict read followed by the update. -/
theorem relaxSet_lookup (d : Dists) (c : Node) (v : DistEntry) (n : Node) :
    dictLookup (dictSet (ddGetDist d c).2 c v) n =
      if n = c then some v else dictLookup d n := by
  unfold ddGetDist
  cases h : dictLookup d c with
  | some e =>
      rw [dictLookup_dictSet]
  | none =>
      rw [dictLookup_dictSet]
      by_cases hn : n = c
      · rw [if_pos hn, if_pos hn]
      · rw [if_neg hn, if_neg hn, dictLookup_append_single_ne _ _ hn]

/-- Net effect on the key list of the defaultdict read followed by the update. -/
theorem relaxSet_keys (d : Dists) (c : Node) (v : DistEntry) :
    keys (dictSet (ddGetDist d c).2 c v) =
      if c ∈ keys d then keys d else keys d ++ [c] := by
  cases h : dictLookup d c with
  | some e =>
      have hc : c ∈ keys d := List.mem_map_of_mem Prod.fst (dictLookup_mem h)
      rw [ddGetDist_of_some h]
      show keys (dictSet d c v) = _
      rw [keys_dictSet, if_pos hc]
  | none =>
      have hc : c ∉ keys d := (dictLookup_eq_none d c).mp h
      have h2 : (ddGetDist d c).2 = d ++ [(c, (none, none))] := by
        unfold ddGetDist; rw [h]
      have hc2 : c ∈ keys (d ++ [(c, ((none : Option Nat), (none : Option Node)))]) := by
        simp [keys]
      rw [h2, keys_dictSet, if_pos hc2, if_neg hc]
      simp [keys]

/-- Extension is reflexive. -/
theorem GExt_refl (g : Graph) : GExt g g :=
  ⟨[], by simp, by simp⟩

/-- Under extension, every successor list is unchanged. -/
theorem GExt_chl {g0 g : Graph} (h : GExt g0 g) (k : Node) : chl g k = chl g0 k := by
  obtain ⟨e, rfl, he⟩ := h
  unfold chl
  cases h0 : dictLookup g0 k with
  | some cs => rw [dictLookup_append_some _ h0]
  | none =>
      rw [dictLookup_append_none _ h0]
      cases h1 : dictLookup e k with
      | none => rfl
      | some v =>
          have hv : v = [] := (he _ (dictLookup_mem h1)).1
          simp [hv]

/-- Under extension, every parents list is unchanged. -/
theorem GExt_parentsOf {g0 g : Graph} (h : GExt g0 g) (x : Node) :
    parentsOf g x = parentsOf g0 x := by
  obtain ⟨e, rfl, he⟩ := h
  unfold parentsOf
  rw [List.flatMap_append]
  have : e.flatMap (fun p => (p.2.filter (fun c => c = x)).map (fun _ => p.1)) = [] := by
    rw [List.flatMap_eq_nil_iff]
    intro p hp
    rw [(he p hp).1]
    simp
  rw [this, List.append_nil]

/-- Under extension, the genesis points are unchanged. -/
theorem GExt_genesisPoints {g0 g : Graph} (h : GExt g0 g) :
    genesisPoints g = genesisPoints g0 := by
  obtain ⟨e, hg, he⟩ := h
  have hpar := GExt_parentsOf ⟨e, hg, he⟩
  subst hg
  unfold genesisPoints
  have hk : keys (g0 ++ e) = keys g0 ++ keys e := by simp [keys]
  rw [hk, List.filter_append]
  have h2 : (keys e).filter (fun k => (parentsOf (g0 ++ e) k).isEmpty) = [] := by
    rw [List.filter_eq_nil_iff]
    intro k hkmem
    rw [keys, List.mem_map] at hkmem
    obtain ⟨p, hp, rfl⟩ := hkmem
    have hch : p.1 ∈ childrenOf g0 := (he p hp).2
    have := parentsOf_ne_nil_of_mem_children hch
    rw [hpar p.1]
    simpa [List.isEmpty_iff] using this
  rw [h2, List.append_nil]
  apply List.filter_congr
  intro k _
  rw [hpar k]

/-- Under extension, the seeded distance map is unchanged. -/
theorem GExt_seedDists {g0 g : Graph} (h : GExt g0 g) :
    seedDists g = seedDists g0 := by
  unfold seedDists
  rw [GExt_genesisPoints h]

/-! ## Seed-state lemmas -/

/-- Lookup in a fold of identical assignments. -/
theorem dictLookup_foldl_set (v : DistEntry) :
    ∀ (l : List Node) (acc : Dists) (n : Node),
      dictLookup (l.foldl (fun d k => dictSet d k v) acc) n =
        if n ∈ l then some v else dictLookup acc n := by
  intro l
  induction l with
  | nil => intro acc n; simp
  | cons k rest ih =>
      intro acc n
      rw [List.foldl_cons, ih, dictLookup_dictSet]
      by_cases h1 : n ∈ rest
      · rw [if_pos h1, if_pos (List.mem_cons_of_mem _ h1)]
      · by_cases h2 : n = k
        · subst h2
          rw [if_neg h1, if_pos rfl, if_pos (List.mem_cons_self _ _)]
        · rw [if_neg h1, if_neg h2, if_neg (by simp [h1, h2])]

/-- Key-list duplicate freedom survives a fold of assignments. -/
theorem keys_foldl_set_nodup (v : DistEntry) :
    ∀ (l : List Node) (acc : Dists), (keys acc).Nodup →
      (keys (l.foldl (fun d k => dictSet d k v) acc)).Nodup := by
  intro l
  induction l with
  | nil => intro acc h; simpa using h
  | cons k rest ih =>
      intro acc h
      rw [List.foldl_cons]
      apply ih
      rw [keys_dictSet]
      by_cases hk : k ∈ keys acc
      · rwa [if_pos hk]
      · rw [if_neg hk]
        simp [List.nodup_append, h, hk]

/-- Lookup in the seeded distance map. -/
theorem seedDists_lookup (g : Graph) (n : Node) :
    dictLookup (seedDists g) n =
      if n ∈ genesisPoints g then some (some 0, none) else none := by
  unfold seedDists
  rw [dictLookup_foldl_set]
  rfl

/-- The seeded distance map has duplicate-free keys. -/
theorem seedDists_nodup (g : Graph) : (keys (seedDists g)).Nodup := by
  unfold seedDists
  exact keys_foldl_set_nodup _ _ [] (by simp [keys])

/-- The seeded distance map satisfies the distance invariant. -/
theorem seedDists_DInv (g : Graph) : DInv g (seedDists g) := by
  intro n e h
  rw [seedDists_lookup] at h
  by_cases hn : n ∈ genesisPoints g
  · rw [if_pos hn] at h
    obtain rfl : ((some 0 : Option Nat), (none : Option Node)) = e := by simpa using h
    refine ⟨⟨0, rfl⟩, mem_graph2set_of_mem_keys (genesisPoints_sub_keys hn), fun _ => hn, ?_⟩
    intro q hq
    simp at hq
  · rw [if_neg hn] at h
    simp at h

/-- The initial frontier satisfies the frontier invariant. -/
theorem seedDists_FrInv (g : Graph) : FrInv (seedDists g) (genesisPoints g).reverse := by
  intro x hx
  rw [List.mem_reverse] at hx
  refine ⟨(some 0, none), ?_, rfl⟩
  rw [seedDists_lookup, if_pos hx]

/-! ## graphGet lemmas -/

/-- The value read by `graph[k]` is the successor list. -/
theorem graphGet_fst (g : Graph) (k : Node) : (graphGet g k).1 = chl g k := by
  unfold graphGet chl
  cases h : dictLookup g k <;> simp

/-- Reading `graph[k]` preserves every successor list. -/
theorem graphGet_chl (g : Graph) (k k2 : Node) :
    chl (graphGet g k).2 k2 = chl g k2 := by
  unfold graphGet
  cases h : dictLookup g k with
  | some cs => rfl
  | none =>
      show chl (g ++ [(k, [])]) k2 = chl g k2
      unfold chl
      by_cases hk : k2 = k
      · subst hk
        rw [dictLookup_append_none _ h, h]
        simp [dictLookup]
      · cases h2 : dictLookup g k2 with
        | some cs => rw [dictLookup_append_some _ h2]
        | none =>
            rw [dictLookup_append_none _ h2]
            simp [dictLookup, Ne.symm hk]

/-- Reading `graph[k]` preserves the extension invariant when `k` is a node. -/
theorem graphGet_GExt {g0 g : Graph} (h : GExt g0 g) {k : Node}
    (hk : k ∈ graph2set g0) : GExt g0 (graphGet g k).2 := by
  unfold graphGet
  cases hl : dictLookup g k with
  | some cs => exact h
  | none =>
      show GExt g0 (g ++ [(k, [])])
      obtain ⟨e, rfl, he⟩ := h
      have h0 : dictLookup g0 k = none := by
        cases h0 : dictLookup g0 k with
        | none => rfl
        | some v => rw [dictLookup_append_some _ h0] at hl; exact absurd hl (by simp)
      have hkk : k ∉ keys g0 := (dictLookup_eq_none g0 k).mp h0
      have hch : k ∈ childrenOf g0 := by
        rcases mem_graph2set_iff.mp hk with h1 | h1
        · exact absurd h1 hkk
        · exact h1
      refine ⟨e ++ [(k, [])], by simp, ?_⟩
      intro p hp
      rcases List.mem_append.mp hp with h1 | h1
      · exact he p h1
      · obtain rfl : p = (k, []) := by simpa using h1
        exact ⟨rfl, hch⟩

/-! ## Counting lemmas for the termination measure -/

/-- Monotonicity of countP under pointwise implication. -/
theorem countP_le_of_imp (p q : Node → Bool) :
    ∀ l : List Node, (∀ n ∈ l, q n = true → p n = true) →
      l.countP q ≤ l.countP p := by
  intro l
  induction l with
  | nil => intro h; simp
  | cons a rest ih =>
      intro h
      rw [List.countP_cons, List.countP_cons]
      have h1 := ih (fun n hn => h n (List.mem_cons_of_mem _ hn))
      by_cases ha : q a = true
      · rw [ha, h a (List.mem_cons_self _ _) ha]
        omega
      · rw [Bool.not_eq_true] at ha
        rw [ha]
        simp only [Bool.false_eq_true, if_false]
        cases hpa : p a <;> simp <;> omega
  -- counted on the right at most as often, head contributes at most one

/-- Flipping one occurring element from counted to uncounted strictly
decreases countP when the predicates otherwise agree. -/
theorem countP_lt_of_flip (p q : Node → Bool) :
    ∀ (l : List Node) (c : Node), c ∈ l → (∀ n, n ≠ c → q n = p n) →
      p c = true → q c = false → l.countP q < l.countP p := by
  intro l
  induction l with
  | nil => intro c h; simp at h
  | cons a rest ih =>
      intro c hc hq hp hqc
      rw [List.countP_cons, List.countP_cons]
      have himp : ∀ n ∈ rest, q n = true → p n = true := by
        intro n _ hn
        by_cases hnc : n = c
        · subst hnc; rw [hqc] at hn; exact absurd hn (by simp)
        · rw [← hq n hnc]; exact hn
      by_cases hac : a = c
      · subst hac
        rw [hp, hqc]
        have := countP_le_of_imp p q rest himp
        simp only [if_true, Bool.false_eq_true, if_false]
        omega
      · have hcr : c ∈ rest := by
          rcases List.mem_cons.mp hc with h1 | h1
          · exact absurd h1.symm hac
          · exact h1
        have h1 := ih c hcr hq hp hqc
        rw [hq a hac]
        omega

/-- Monotonicity of a mapped sum under pointwise inequality. -/
theorem sum_map_le_of_pointwise (f f2 : Node → Nat) :
    ∀ l : List Node, (∀ n ∈ l, f2 n ≤ f n) →
      (l.map f2).sum ≤ (l.map f).sum := by
  intro l
  induction l with
  | nil => intro h; simp
  | cons a rest ih =>
      intro h
      rw [List.map_cons, List.map_cons, List.sum_cons, List.sum_cons]
      have h1 := ih (fun n hn => h n (List.mem_cons_of_mem _ hn))
      have h2 := h a (List.mem_cons_self _ _)
      omega

/-- Strictly decreasing one occurring element strictly decreases the sum
when the functions otherwise agree. -/
theorem sum_map_lt_of_flip (f f2 : Node → Nat) :
    ∀ (l : List Node) (c : Node), c ∈ l → (∀ n, n ≠ c → f2 n = f n) →
      f2 c < f c → (l.map f2).sum < (l.map f).sum := by
  intro l
  induction l with
  | nil => intro c h; simp at h
  | cons a rest ih =>
      intro c hc hq hlt
      rw [List.map_cons, List.map_cons, List.sum_cons, List.sum_cons]
      have hle : ∀ n ∈ rest, f2 n ≤ f n := by
        intro n _
        by_cases hnc : n = c
        · subst hnc; omega
        · rw [hq n hnc]
      by_cases hac : a = c
      · subst hac
        have := sum_map_le_of_pointwise f f2 rest hle
        omega
      · have hcr : c ∈ rest := by
          rcases List.mem_cons.mp hc with h1 | h1
          · exact absurd h1.symm hac
          · exact h1
        have h1 := ih c hcr hq hlt
        rw [hq a hac]
        omega

/-- Equal lookups give equal finiteness status. -/
theorem isFin_congr {d d2 : Dists} {n : Node}
    (h : dictLookup d2 n = dictLookup d n) : isFin d2 n = isFin d n := by
  unfold isFin
  rw [h]

/-- Equal lookups give equal stored values. -/
theorem finVal_congr {d d2 : Dists} {n : Node}
    (h : dictLookup d2 n = dictLookup d n) : finVal d2 n = finVal d n := by
  unfold finVal
  rw [h]

/-- Transitivity of the measure decrease. -/
theorem MLt_trans {g0 : Graph} {d1 d2 d3 : Dists}
    (h1 : MLt g0 d1 d2) (h2 : MLt g0 d2 d3) : MLt g0 d1 d3 := by
  unfold MLt at h1 h2 ⊢
  omega

/-- One successful relaxation update strictly decreases the measure:
either the child node becomes finite for the first time, or its stored
finite distance strictly drops. -/
theorem relaxStep_MLt (g0 : Graph) (d : Dists) (c curr : Node) (v : Nat)
    (hc : c ∈ graph2set g0)
    (hb : ltInf (some v) ((ddGetDist d c).1).1 = true) :
    MLt g0 (dictSet (ddGetDist d c).2 c (some v, some curr)) d := by
  have hL := relaxSet_lookup d c (some v, some curr)
  have hfc : isFin (dictSet (ddGetDist d c).2 c (some v, some curr)) c = true := by
    unfold isFin
    rw [hL c, if_pos rfl]
  have hvc : finVal (dictSet (ddGetDist d c).2 c (some v, some curr)) c = v := by
    unfold finVal
    rw [hL c, if_pos rfl]
  have hne : ∀ n, n ≠ c →
      dictLookup (dictSet (ddGetDist d c).2 c (some v, some curr)) n = dictLookup d n := by
    intro n hn
    rw [hL n, if_neg hn]
  cases hlc : dictLookup d c with
  | some e =>
      obtain ⟨dv, pr⟩ := e
      cases dv with
      | some k =>
          -- the child already had a finite distance; the update strictly drops it
          have hvk : v < k := by
            rw [ddGetDist_of_some hlc] at hb
            simpa [ltInf] using hb
          right
          constructor
          · unfold cntInf
            apply List.countP_congr
            intro n _
            by_cases hn : n = c
            · subst hn
              unfold isFin
              rw [hL n, if_pos rfl, hlc]
            · rw [isFin_congr (hne n hn)]
          · unfold sumFin
            apply sum_map_lt_of_flip
            · exact hc
            · intro n hn
              exact finVal_congr (hne n hn)
            · rw [hvc]
              unfold finVal
              rw [hlc]
              exact hvk
      | none =>
          -- the child was recorded as infinite; it becomes finite
          left
          unfold cntInf
          apply countP_lt_of_flip
          · exact hc
          · intro n hn
            rw [isFin_congr (hne n hn)]
          · unfold isFin
            rw [hlc]
            rfl
          · rw [hfc]
            rfl
  | none =>
      -- the child had no entry at all; it becomes finite
      left
      unfold cntInf
      apply countP_lt_of_flip
      · exact hc
      · intro n hn
        rw [isFin_congr (hne n hn)]
      · unfold isFin
        rw [hlc]
        rfl
      · rw [hfc]
        rfl

/-- Master lemma for the inner relaxation loop: the invariants are
preserved, the frontier grows by at most one slot per child, and either
nothing changed at all or the termination measure strictly decreased. -/
theorem relaxChildren_spec (g0 : Graph) (curr : Node) :
    ∀ (cs : List Node) (d : Dists) (fr : List Node),
      (∀ c ∈ cs, c ∈ chl g0 curr) →
      curr ∈ graph2set g0 →
      DInv g0 d → FrInv d fr → (keys d).Nodup →
      (∃ e, dictLookup d curr = some e ∧ e.1.isSome = true) →
      DInv g0 (relaxChildren curr cs d fr).1 ∧
      FrInv (relaxChildren curr cs d fr).1 (relaxChildren curr cs d fr).2 ∧
      (keys (relaxChildren curr cs d fr).1).Nodup ∧
      (relaxChildren curr cs d fr).2.length ≤ cs.length + fr.length ∧
      ((relaxChildren curr cs d fr).1 = d ∧ (relaxChildren curr cs d fr).2 = fr ∨
        MLt g0 (relaxChildren curr cs d fr).1 d) := by
  intro cs
  induction cs with
  | nil =>
      intro d fr hcs hcurr hd hf hnd hce
      exact ⟨hd, hf, hnd, by simp [relaxChildren], Or.inl ⟨rfl, rfl⟩⟩
  | cons c cs ih =>
      intro d fr hcs hcurr hd hf hnd hce
      obtain ⟨ec, hec, hecf⟩ := hce
      obtain ⟨dc, hdc⟩ : ∃ k, ec.1 = some k := by
        cases h : ec.1
        · rw [h] at hecf; exact absurd hecf (by simp)
        · exact ⟨_, rfl⟩
      have hcchl : c ∈ chl g0 curr := hcs c (List.mem_cons_self _ _)
      have hcG : c ∈ graph2set g0 :=
        mem_graph2set_of_mem_children (mem_childrenOf_of_mem_chl hcchl)
      have hred : relaxChildren curr (c :: cs) d fr =
          if ltInf (some (dc + 1)) ((ddGetDist d c).1).1 then
            relaxChildren curr cs
              (dictSet (ddGetDist d c).2 c (some (dc + 1), some curr)) (c :: fr)
          else relaxChildren curr cs (ddGetDist d c).2 fr := by
        simp only [relaxChildren, ddGetDist_of_some hec, hdc, Option.map_some']
      rw [hred]
      by_cases hb : ltInf (some (dc + 1)) ((ddGetDist d c).1).1 = true
      · rw [if_pos hb]
        set d2 := dictSet (ddGetDist d c).2 c (some (dc + 1), some curr) with hd2
        have hL := relaxSet_lookup d c (some (dc + 1), some curr)
        have hpres : ∀ x, (∃ e, dictLookup d x = some e ∧ e.1.isSome = true) →
            ∃ e, dictLookup d2 x = some e ∧ e.1.isSome = true := by
          intro x hx
          by_cases hxc : x = c
          · subst hxc
            refine ⟨(some (dc + 1), some curr), ?_, rfl⟩
            rw [hL x, if_pos rfl]
          · obtain ⟨e, he, hef⟩ := hx
            exact ⟨e, by rw [hL x, if_neg hxc]; exact he, hef⟩
        have hd2inv : DInv g0 d2 := by
          intro n e hn
          rw [hL n] at hn
          by_cases hnc : n = c
          · rw [if_pos hnc] at hn
            rw [Option.some_inj] at hn
            subst hnc
            subst hn
            refine ⟨⟨dc + 1, rfl⟩, hcG, ?_, ?_⟩
            · intro h; exact absurd h (by simp)
            · intro q hq
              have hqc : q = curr := by simpa using hq.symm
              rw [hqc]
              exact ⟨hcurr, hcchl, hpres curr ⟨ec, hec, hecf⟩⟩
          · rw [if_neg hnc] at hn
            obtain ⟨hfin, hmem, hgen, hq⟩ := hd n e hn
            refine ⟨hfin, hmem, hgen, ?_⟩
            intro q hq2
            obtain ⟨hqG, hqchl, e2, he2, he2f⟩ := hq q hq2
            exact ⟨hqG, hqchl, hpres q ⟨e2, he2, he2f⟩⟩
        have hf2 : FrInv d2 (c :: fr) := by
          intro x hx
          rcases List.mem_cons.mp hx with h1 | h1
          · subst h1
            refine ⟨(some (dc + 1), some curr), ?_, rfl⟩
            rw [hL x, if_pos rfl]
          · exact hpres x (hf x h1)
        have hnd2 : (keys d2).Nodup := by
          rw [hd2, relaxSet_keys]
          by_cases hck : c ∈ keys d
          · rwa [if_pos hck]
          · rw [if_neg hck]
            simp [List.nodup_append, hnd, hck]
        have hce2 : ∃ e, dictLookup d2 curr = some e ∧ e.1.isSome = true :=
          hpres curr ⟨ec, hec, hecf⟩
        have hMlt : MLt g0 d2 d := relaxStep_MLt g0 d c curr (dc + 1) hcG hb
        obtain ⟨ha, hb2, hc2, hlen, htri⟩ :=
          ih d2 (c :: fr) (fun x hx => hcs x (List.mem_cons_of_mem _ hx)) hcurr
            hd2inv hf2 hnd2 hce2
        refine ⟨ha, hb2, hc2, ?_, ?_⟩
        · have h3 : (c :: cs).length + fr.length = cs.length + (c :: fr).length := by
            simp only [List.length_cons]
            omega
          rw [h3]
          exact hlen
        · right
          rcases htri with ⟨heq, -⟩ | hlt
          · rw [heq]; exact hMlt
          · exact MLt_trans hlt hMlt
      · rw [if_neg hb]
        have hdd : (ddGetDist d c).2 = d := by
          cases hlc : dictLookup d c with
          | some e => rw [ddGetDist_of_some hlc]
          | none =>
              exfalso
              apply hb
              unfold ddGetDist
              rw [hlc]
              rfl
        rw [hdd]
        obtain ⟨ha, hb2, hc2, hlen, htri⟩ :=
          ih d fr (fun x hx => hcs x (List.mem_cons_of_mem _ hx)) hcurr hd hf hnd
            ⟨ec, hec, hecf⟩
        refine ⟨ha, hb2, hc2, ?_, htri⟩
        refine Nat.le_trans hlen ?_
        simp only [List.length_cons]
        omega

/-- One unfolding of the relaxation loop at a nonempty frontier. -/
theorem relaxLoop_cons (fuel : Nat) (g : Graph) (d : Dists) (curr : Node) (rest : List Node) :
    relaxLoop (fuel + 1) g d (curr :: rest) =
      relaxLoop fuel (graphGet g curr).2
        (relaxChildren curr (graphGet g curr).1 d rest).1
        (relaxChildren curr (graphGet g curr).1 d rest).2 := by
  simp only [relaxLoop]

/-- Facts available after one loop step: invariants are preserved, the
frontier length is bounded, and the measure decreases unless nothing
changed. -/
theorem relaxLoop_step_facts (g0 : Graph) {g : Graph} {d : Dists} {curr : Node}
    {rest : List Node}
    (hg : GExt g0 g) (hd : DInv g0 d) (hf : FrInv d (curr :: rest))
    (hnd : (keys d).Nodup) :
    GExt g0 (graphGet g curr).2 ∧
    DInv g0 (relaxChildren curr (graphGet g curr).1 d rest).1 ∧
    FrInv (relaxChildren curr (graphGet g curr).1 d rest).1
      (relaxChildren curr (graphGet g curr).1 d rest).2 ∧
    (keys (relaxChildren curr (graphGet g curr).1 d rest).1).Nodup ∧
    ((relaxChildren curr (graphGet g curr).1 d rest).1 = d ∧
        (relaxChildren curr (graphGet g curr).1 d rest).2 = rest ∨
      MLt g0 (relaxChildren curr (graphGet g curr).1 d rest).1 d) := by
  obtain ⟨ec, hec, hecf⟩ := hf curr (List.mem_cons_self _ _)
  have hcurrG : curr ∈ graph2set g0 := (hd curr ec hec).2.1
  have hcs : ∀ c ∈ (graphGet g curr).1, c ∈ chl g0 curr := by
    rw [graphGet_fst, GExt_chl hg]
    exact fun c h => h
  have hfr : FrInv d rest := fun x hx => hf x (List.mem_cons_of_mem _ hx)
  obtain ⟨h1, h2, h3, -, h5⟩ :=
    relaxChildren_spec g0 curr (graphGet g curr).1 d rest hcs hcurrG hd hfr hnd
      ⟨ec, hec, hecf⟩
  exact ⟨graphGet_GExt hg hcurrG, h1, h2, h3, h5⟩

/-- Invariant preservation along the whole relaxation loop. -/
theorem relaxLoop_inv (g0 : Graph) :
    ∀ (fuel : Nat) (g : Graph) (d : Dists) (fr : List Node) (g2 : Graph) (d2 : Dists),
      GExt g0 g → DInv g0 d → FrInv d fr → (keys d).Nodup →
      relaxLoop fuel g d fr = some (g2, d2) →
      GExt g0 g2 ∧ DInv g0 d2 ∧ (keys d2).Nodup := by
  intro fuel
  induction fuel with
  | zero =>
      intro g d fr g2 d2 hg hd hf hnd h
      cases fr with
      | nil =>
          obtain ⟨rfl, rfl⟩ : g = g2 ∧ d = d2 := by simpa [relaxLoop] using h
          exact ⟨hg, hd, hnd⟩
      | cons c rest => simp [relaxLoop] at h
  | succ fuel ih =>
      intro g d fr g2 d2 hg hd hf hnd h
      cases fr with
      | nil =>
          obtain ⟨rfl, rfl⟩ : g = g2 ∧ d = d2 := by simpa [relaxLoop] using h
          exact ⟨hg, hd, hnd⟩
      | cons curr rest =>
          rw [relaxLoop_cons] at h
          obtain ⟨hg2, hd2, hf2, hnd2, -⟩ := relaxLoop_step_facts g0 hg hd hf hnd
          exact ih _ _ _ _ _ hg2 hd2 hf2 hnd2 h

/-- The relaxation loop terminates from every invariant-respecting state:
well-founded induction on (unreached count, finite-distance sum, frontier
length) ordered lexicographically.  No acyclicity is needed: a successful
update strictly shrinks the measure because stored distances only ever
decrease. -/
theorem relaxLoop_ex (g0 : Graph) :
    ∀ (g : Graph) (d : Dists) (fr : List Node),
      GExt g0 g → DInv g0 d → FrInv d fr → (keys d).Nodup →
      ∃ fuel r, relaxLoop fuel g d fr = some r := by
  have hwf : WellFounded (Prod.Lex Nat.lt (Prod.Lex Nat.lt Nat.lt)) :=
    (Nat.lt_wfRel.wf).prod_lex ((Nat.lt_wfRel.wf).prod_lex Nat.lt_wfRel.wf)
  suffices hs : ∀ m : Nat × Nat × Nat, ∀ (g : Graph) (d : Dists) (fr : List Node),
      m = (cntInf g0 d, sumFin g0 d, fr.length) →
      GExt g0 g → DInv g0 d → FrInv d fr → (keys d).Nodup →
      ∃ fuel r, relaxLoop fuel g d fr = some r by
    intro g d fr hg hd hf hnd
    exact hs _ g d fr rfl hg hd hf hnd
  intro m
  refine @WellFounded.induction _ _ hwf
    (fun m => ∀ (g : Graph) (d : Dists) (fr : List Node),
      m = (cntInf g0 d, sumFin g0 d, fr.length) →
      GExt g0 g → DInv g0 d → FrInv d fr → (keys d).Nodup →
      ∃ fuel r, relaxLoop fuel g d fr = some r) m ?_
  intro x ihx g d fr hm hg hd hf hnd
  cases fr with
  | nil => exact ⟨0, (g, d), rfl⟩
  | cons curr rest =>
      obtain ⟨hg2, hd2, hf2, hnd2, htri⟩ := relaxLoop_step_facts g0 hg hd hf hnd
      have hlex : Prod.Lex Nat.lt (Prod.Lex Nat.lt Nat.lt)
          (cntInf g0 (relaxChildren curr (graphGet g curr).1 d rest).1,
            sumFin g0 (relaxChildren curr (graphGet g curr).1 d rest).1,
            (relaxChildren curr (graphGet g curr).1 d rest).2.length) x := by
        subst hm
        rcases htri with ⟨h1, h2⟩ | hmlt
        · rw [h1, h2]
          refine Prod.Lex.right _ (Prod.Lex.right _ ?_)
          show rest.length < (curr :: rest).length
          simp only [List.length_cons]
          omega
        · rcases hmlt with hcnt | ⟨hceq, hsum⟩
          · exact Prod.Lex.left _ _ hcnt
          · rw [hceq]
            exact Prod.Lex.right _ (Prod.Lex.left _ _ hsum)
      obtain ⟨fuel, r, hr⟩ :=
        ihx _ hlex (graphGet g curr).2
          (relaxChildren curr (graphGet g curr).1 d rest).1
          (relaxChildren curr (graphGet g curr).1 d rest).2 rfl hg2 hd2 hf2 hnd2
      exact ⟨fuel + 1, r, by rw [relaxLoop_cons]; exact hr⟩

/-- C9: for every finite acyclic transition graph, the relaxation loop of
longest_path terminates: some fuel lets the loop empty its frontier and
return.  (The proof in fact needs no acyclicity: every successful update
strictly decreases the stored distance of its node, so the work list is
exhausted on every finite graph.) -/
theorem c9_relaxation_terminates (g : Graph) (hacyc : acyclicB g = true) :
    ∃ fuel r, relaxLoop fuel g (seedDists g) (genesisPoints g).reverse = some r :=
  relaxLoop_ex g g (seedDists g) (genesisPoints g).reverse (GExt_refl g)
    (seedDists_DInv g) (seedDists_FrInv g) (seedDists_nodup g)

set_option maxRecDepth 10000 in
/-- Witness for C9 on the concrete acyclic chain graph. -/
theorem c9_witness :
    acyclicB [("a", ["b"]), ("b", ["c"]), ("c", ["d"])] = true ∧
    ∃ fuel r, relaxLoop fuel [("a", ["b"]), ("b", ["c"]), ("c", ["d"])]
      (seedDists [("a", ["b"]), ("b", ["c"]), ("c", ["d"])])
      (genesisPoints [("a", ["b"]), ("b", ["c"]), ("c", ["d"])]).reverse = some r :=
  ⟨by decide, c9_relaxation_terminates _ (by decide)⟩

/-- Appending one more edge to the end of a chain. -/
theorem chainB_snoc (g : Graph) :
    ∀ (l : List Node) (q y : Node), chainB g (l ++ [q]) = true → y ∈ chl g q →
      chainB g ((l ++ [q]) ++ [y]) = true := by
  intro l
  induction l with
  | nil =>
      intro q y h hy
      simp [chainB, hy]
  | cons a l ih =>
      intro q y h hy
      cases l with
      | nil =>
          simp only [List.nil_append, List.cons_append] at h ⊢
          rw [chainB, Bool.and_eq_true] at h
          rw [chainB, Bool.and_eq_true]
          exact ⟨h.1, by simp [chainB, hy]⟩
      | cons b l2 =>
          simp only [List.cons_append] at h ⊢
          rw [chainB, Bool.and_eq_true] at h
          rw [chainB, Bool.and_eq_true]
          refine ⟨h.1, ?_⟩
          have := ih q y (by simpa using h.2) hy
          simpa using this

/-- Appending one more edge to the end of a genesis-rooted path. -/
theorem isGenesisPath_snoc (g : Graph) (l : List Node) (q y : Node)
    (h : isGenesisPath g (l ++ [q]) = true) (hy : y ∈ chl g q) :
    isGenesisPath g ((l ++ [q]) ++ [y]) = true := by
  obtain ⟨x, rest, hl⟩ : ∃ x rest, l ++ [q] = x :: rest := by
    cases hl : l ++ [q] with
    | nil => exact absurd hl (by simp)
    | cons x rest => exact ⟨x, rest, rfl⟩
  unfold isGenesisPath at h ⊢
  rw [hl] at h
  have happ : (l ++ [q]) ++ [y] = x :: (rest ++ [y]) := by rw [hl]; rfl
  rw [happ]
  rw [Bool.and_eq_true] at h
  show (decide (x ∈ genesisPoints g) && chainB g (x :: (rest ++ [y]))) = true
  rw [Bool.and_eq_true]
  refine ⟨h.1, ?_⟩
  have hc : chainB g ((l ++ [q]) ++ [y]) = true :=
    chainB_snoc g l q y (by rw [hl]; exact h.2) hy
  rw [happ] at hc
  exact hc

/-- Python max returns an item of the dict. -/
theorem maxByDist_mem {d : Dists} {x : Node × DistEntry}
    (h : maxByDist d = some x) : x ∈ d := by
  unfold maxByDist at h
  cases d with
  | nil => simp at h
  | cons e rest =>
      rw [Option.some_inj] at h
      subst h
      have : ∀ (l : List (Node × DistEntry)) (b : Node × DistEntry), b ∈ e :: rest →
          (∀ y ∈ l, y ∈ e :: rest) →
          l.foldl (fun best x => if gtInf x.2.1 best.2.1 then x else best) b ∈ e :: rest := by
        intro l
        induction l with
        | nil => intro b hb _; exact hb
        | cons a l2 ih2 =>
            intro b hb hl
            rw [List.foldl_cons]
            by_cases hg : gtInf a.2.1 b.2.1 = true
            · rw [if_pos hg]
              exact ih2 a (hl a (List.mem_cons_self _ _))
                (fun y hy => hl y (List.mem_cons_of_mem _ hy))
            · rw [if_neg hg]
              exact ih2 b hb (fun y hy => hl y (List.mem_cons_of_mem _ hy))
      exact this rest e (List.mem_cons_self _ _) (fun y hy => List.mem_cons_of_mem _ hy)

/-- Path reconstruction follows predecessor links: starting from an entry
of an invariant-respecting distance map over a graph without empty-string
nodes, it yields a genesis-rooted recorded-edge path consed onto the
accumulator. -/
theorem backtrack_spec (g0 : Graph) (d : Dists) (hd : DInv g0 d)
    (hne : ∀ n ∈ graph2set g0, n ≠ "") :
    ∀ (fuel : Nat) (st : Node × DistEntry) (acc p : List Node),
      dictLookup d st.1 = some st.2 →
      backtrack fuel d st acc = some p →
      ∃ pre, p = pre ++ st.1 :: acc ∧ isGenesisPath g0 (pre ++ [st.1]) = true := by
  intro fuel
  induction fuel with
  | zero => intro st acc p hst h; simp [backtrack] at h
  | succ fuel ih =>
      intro st acc p hst h
      obtain ⟨n, dv, pr⟩ := st
      cases pr with
      | none =>
          simp only [backtrack] at h
          obtain rfl : n :: acc = p := by simpa using h
          refine ⟨[], by simp, ?_⟩
          obtain ⟨-, -, hgen, -⟩ := hd n (dv, none) hst
          have hn : n ∈ genesisPoints g0 := hgen rfl
          simp [isGenesisPath, chainB, hn]
      | some q =>
          obtain ⟨hfin, hmem, hgen, hq⟩ := hd n (dv, some q) hst
          obtain ⟨hqG, hqchl, e2, he2, he2f⟩ := hq q rfl
          have hqne : q ≠ "" := hne q hqG
          simp only [backtrack] at h
          rw [if_neg hqne, ddGetDist_of_some he2] at h
          obtain ⟨pre2, hp, hgp⟩ := ih (q, e2) (n :: acc) p he2 h
          refine ⟨pre2 ++ [q], ?_, ?_⟩
          · rw [hp]
            simp
          · exact isGenesisPath_snoc g0 pre2 q n hgp hqchl

/-- C10: whenever longest_path returns a path on a graph with at least one
genesis node (and hash strings are nonempty, as the log regex guarantees),
the path is nonempty, its first element is a genesis node, and every
consecutive pair is a recorded edge of the graph. -/
theorem c10_path_is_genesis_edge_path (fuel : Nat) (g : Graph) (p : List Node)
    (g2 : Graph)
    (hne : ∀ n ∈ graph2set g, n ≠ "")
    (hgen : genesisPoints g ≠ [])
    (h : longest_path fuel g = some (LPResult.ok p g2)) :
    p ≠ [] ∧ isGenesisPath g p = true := by
  unfold longest_path at h
  cases hR : relaxLoop fuel g (seedDists g) (genesisPoints g).reverse with
  | none => rw [hR] at h; exact absurd h (by simp)
  | some pr =>
      obtain ⟨gX, dX⟩ := pr
      rw [hR] at h
      dsimp only at h
      obtain ⟨-, hdX, hndX⟩ := relaxLoop_inv g fuel g _ _ gX dX (GExt_refl g)
        (seedDists_DInv g) (seedDists_FrInv g) (seedDists_nodup g) hR
      cases hM : maxByDist dX with
      | none => rw [hM] at h; simp at h
      | some ep =>
          rw [hM] at h
          dsimp only at h
          cases hB : backtrack fuel dX ep [] with
          | none => rw [hB] at h; exact absurd h (by simp)
          | some p2 =>
              rw [hB] at h
              obtain ⟨rfl, -⟩ : p2 = p ∧ gX = g2 := by simpa using h
              obtain ⟨en, ee⟩ := ep
              have hlook : dictLookup dX en = some ee := dictLookup_of_mem hndX (maxByDist_mem hM)
              obtain ⟨pre, hp, hgp⟩ := backtrack_spec g dX hdX hne fuel (en, ee) [] p2 hlook hB
              subst hp
              exact ⟨by simp, by simpa using hgp⟩

set_option maxRecDepth 10000 in
/-- Witness for C10 on the chain graph. -/
theorem c10_witness :
    (["a", "b", "c", "d"] : List Node) ≠ [] ∧
    isGenesisPath [("a", ["b"]), ("b", ["c"]), ("c", ["d"])] ["a", "b", "c", "d"] = true :=
  c10_path_is_genesis_edge_path 10 [("a", ["b"]), ("b", ["c"]), ("c", ["d"])]
    ["a", "b", "c", "d"] [("a", ["b"]), ("b", ["c"]), ("c", ["d"]), ("d", [])]
    (by decide) (by decide) (by rfl)

/-- C3 (amended): running longest_path leaves every pre-existing key and its
successor list in place and unchanged; the only mutation is that keys with
empty successor lists may be appended for visited child nodes (defaultdict
auto-vivification), as the counterexample forces. -/
theorem c3_amended_graph_extension (fuel : Nat) (g : Graph) (r : LPResult)
    (h : longest_path fuel g = some r) :
    ∃ e, resultGraph r = g ++ e ∧
      ∀ q ∈ e, q.2 = ([] : List Node) ∧ q.1 ∈ childrenOf g := by
  unfold longest_path at h
  cases hR : relaxLoop fuel g (seedDists g) (genesisPoints g).reverse with
  | none => rw [hR] at h; exact absurd h (by simp)
  | some pr =>
      obtain ⟨g2, d2⟩ := pr
      rw [hR] at h
      dsimp only at h
      obtain ⟨hG, -, -⟩ := relaxLoop_inv g fuel g _ _ g2 d2 (GExt_refl g)
        (seedDists_DInv g) (seedDists_FrInv g) (seedDists_nodup g) hR
      cases hM : maxByDist d2 with
      | none =>
          rw [hM] at h
          obtain rfl : LPResult.valueError g2 = r := by simpa using h
          exact hG
      | some ep =>
          rw [hM] at h
          dsimp only at h
          cases hB : backtrack fuel d2 ep [] with
          | none => rw [hB] at h; exact absurd h (by simp)
          | some p =>
              rw [hB] at h
              obtain rfl : LPResult.ok p g2 = r := by simpa using h
              exact hG

set_option maxRecDepth 10000 in
/-- Witness for the amended C3 on the one-edge graph. -/
theorem c3_amended_witness :
    ∃ e, resultGraph (LPResult.ok ["a", "b"] [("a", ["b"]), ("b", [])]) =
        [("a", ["b"])] ++ e ∧
      ∀ q ∈ e, q.2 = ([] : List Node) ∧ q.1 ∈ childrenOf [("a", ["b"])] :=
  c3_amended_graph_extension 10 [("a", ["b"])] _ (by rfl)

/-- The distance outcome of the loop depends on the graph only through its
successor lists. -/
theorem relaxLoop_chl_congr :
    ∀ (fuel : Nat) (gA gB : Graph) (d : Dists) (fr : List Node),
      (∀ k, chl gA k = chl gB k) →
      (relaxLoop fuel gA d fr).map Prod.snd = (relaxLoop fuel gB d fr).map Prod.snd := by
  intro fuel
  induction fuel with
  | zero =>
      intro gA gB d fr hk
      cases fr with
      | nil => simp [relaxLoop]
      | cons c rest => simp [relaxLoop]
  | succ fuel ih =>
      intro gA gB d fr hk
      cases fr with
      | nil => simp [relaxLoop]
      | cons curr rest =>
          rw [relaxLoop_cons, relaxLoop_cons]
          have h1 : (graphGet gA curr).1 = (graphGet gB curr).1 := by
            rw [graphGet_fst, graphGet_fst, hk]
          rw [h1]
          apply ih
          intro k
          rw [graphGet_chl, graphGet_chl, hk]

/-- C6: the Longest Path Finder is idempotent: a second run on the same
(possibly mutated) graph object returns exactly the same path, because the
first run only appended empty-successor keys for child nodes, changing
neither the genesis points nor any successor list. -/
theorem c6_idempotent (fuel : Nat) (g : Graph) (p1 : List Node) (g1 : Graph)
    (h : longest_path fuel g = some (LPResult.ok p1 g1)) :
    ∃ g2, longest_path fuel g1 = some (LPResult.ok p1 g2) := by
  unfold longest_path at h ⊢
  cases hR : relaxLoop fuel g (seedDists g) (genesisPoints g).reverse with
  | none => rw [hR] at h; exact absurd h (by simp)
  | some pr =>
      obtain ⟨gX, dX⟩ := pr
      rw [hR] at h
      dsimp only at h
      obtain ⟨hG, -, -⟩ := relaxLoop_inv g fuel g _ _ gX dX (GExt_refl g)
        (seedDists_DInv g) (seedDists_FrInv g) (seedDists_nodup g) hR
      cases hM : maxByDist dX with
      | none => rw [hM] at h; simp at h
      | some ep =>
          rw [hM] at h
          dsimp only at h
          cases hB : backtrack fuel dX ep [] with
          | none => rw [hB] at h; exact absurd h (by simp)
          | some p =>
              rw [hB] at h
              obtain ⟨rfl, rfl⟩ : p = p1 ∧ gX = g1 := by simpa using h
              have hsim := relaxLoop_chl_congr fuel gX g (seedDists g)
                (genesisPoints g).reverse (GExt_chl hG)
              rw [hR] at hsim
              cases hR2 : relaxLoop fuel gX (seedDists g) (genesisPoints g).reverse with
              | none => rw [hR2] at hsim; simp at hsim
              | some pr2 =>
                  obtain ⟨gY, dY⟩ := pr2
                  rw [hR2] at hsim
                  obtain rfl : dY = dX := by simpa using hsim
                  refine ⟨gY, ?_⟩
                  rw [GExt_seedDists hG, GExt_genesisPoints hG, hR2]
                  simp [hM, hB]

set_option maxRecDepth 10000 in
/-- Witness for C6: the second run on the chain graph (already extended by
the first run) returns the same path. -/
theorem c6_witness :
    ∃ g2, longest_path 10 [("a", ["b"]), ("b", ["c"]), ("c", ["d"]), ("d", [])] =
      some (LPResult.ok ["a", "b", "c", "d"] g2) :=
  c6_idempotent 10 [("a", ["b"]), ("b", ["c"]), ("c", ["d"])] ["a", "b", "c", "d"]
    [("a", ["b"]), ("b", ["c"]), ("c", ["d"]), ("d", [])] (by rfl)
